import Mathlib

/-!
Shallow embedding of the tile utilities of this repository
(renamer.py, tilesplitter.py, tilemapforatlas.py, tilebaker.py).

Filenames are modelled as lists of characters (a Python str is a sequence
of characters).  The in-source configuration constants (TILESET_WIDTH,
TILE_SIZE, ATLAS_COLS, CHUNK_SIZE, MAP_COLS, MAP_ROWS) become parameters
of the embedded functions; the concrete values used by the scripts
(17, 16, 16, 16, 16, 16) are supplied at the concrete instances.
-/

/-- The characters of the extension ".png" used by all four scripts. -/
def pngChars : List Char := ['.', 'p', 'n', 'g']

/-- Python str.split(sep) for a one-character separator: cuts the list at
every occurrence of the separator; adjacent separators give empty pieces. -/
def splitOnChar (sep : Char) : List Char → List (List Char)
  | [] => [[]]
  | c :: rest =>
    let r := splitOnChar sep rest
    if c = sep then [] :: r
    else
      match r with
      | [] => [[c]]
      | h :: t => (c :: h) :: t

/-- Python filename.endswith(".png"), case sensitive, as in renamer.py. -/
def endsWithPng (f : List Char) : Bool :=
  f.reverse.take 4 == ['g', 'n', 'p', '.']

/-- Python f.lower().endswith(".png"), the case-insensitive read filter of
tilemapforatlas.py. -/
def isPngCI (f : List Char) : Bool :=
  endsWithPng (f.map Char.toLower)

/-- os.path.splitext(f)[0]: the characters of f before its last dot.
Both scripts apply it only to names that end in ".png" (so a dot is
present); on such names this agrees with Python. -/
def stemOf (f : List Char) : List Char :=
  ((f.reverse.dropWhile (fun c => c ≠ '.')).tail).reverse

/-- Numeric value of a decimal digit character. -/
def digitVal (c : Char) : Nat := c.toNat - 48

/-- Digits of a Python int literal after the first digit: decimal digits
with single underscores allowed between digits, as accepted by int() in
Python 3.6+.  Accumulates the value. -/
def pyDigitsCore : List Char → Nat → Option Nat
  | [], acc => some acc
  | '_' :: rest, acc =>
    match rest with
    | [] => none
    | c :: rest2 =>
      if c.isDigit then pyDigitsCore rest2 (acc * 10 + digitVal c) else none
  | c :: rest, acc =>
    if c.isDigit then pyDigitsCore rest (acc * 10 + digitVal c) else none

/-- A nonempty run of decimal digits (underscore separators allowed after
the first digit), as int() requires after the optional sign. -/
def pyNatOfChars : List Char → Option Nat
  | [] => none
  | c :: rest => if c.isDigit then pyDigitsCore rest (digitVal c) else none

/-- Python int(s) on a character sequence: optional sign followed by
decimal digits (single underscores allowed between digits).  Surrounding
whitespace and non-ASCII digits, which int() also accepts, are not
modelled; no filename stem in any statement below uses them. -/
def pyIntOfChars : List Char → Option Int
  | '-' :: rest => (pyNatOfChars rest).map (fun n => -(n : Int))
  | '+' :: rest => (pyNatOfChars rest).map (fun n => (n : Int))
  | cs => (pyNatOfChars cs).map (fun n => (n : Int))

/-- Decimal digits of n, most significant first, with explicit fuel so the
definition is structural (fuel n + 1 always suffices). -/
def digitsGo : Nat → Nat → List Char
  | _, 0 => []
  | n, fuel + 1 =>
    if n < 10 then [Nat.digitChar n]
    else digitsGo (n / 10) fuel ++ [Nat.digitChar (n % 10)]

/-- Python str(n) for a natural number. -/
def natRepr (n : Nat) : List Char := digitsGo n (n + 1)

/-- Python str(i) for an integer: a minus sign before the digits when i is
negative. -/
def intRepr (i : Int) : List Char :=
  if i < 0 then '-' :: natRepr i.natAbs else natRepr i.toNat

/-- renamer.py line 17: tile_id = y // 16 * TILESET_WIDTH + (x // 16) + 1,
with Python floor division (Int.fdiv). -/
def tile_id (W x y : Int) : Int :=
  y.fdiv 16 * W + x.fdiv 16 + 1

/-- One iteration of the renamer loop on a single filename: the new name
if the file is renamed, none if it is skipped.  Mirrors renamer.py lines
9-19: the case-sensitive ".png" filter, splitext, split on the
underscore, the two int() parses (any failure, including a part count
other than two, is the ValueError that is caught and skipped), tile_id,
and the f-string target name. -/
def renamerStep (W : Int) (f : List Char) : Option (List Char) :=
  if endsWithPng f then
    match splitOnChar '_' (stemOf f) with
    | [a, b] =>
      match pyIntOfChars a, pyIntOfChars b with
      | some x, some y => some (intRepr (tile_id W x y) ++ pngChars)
      | _, _ => none
    | _ => none
  else none

/-- os.rename(src, dst) on a folder state (a list of distinct filenames):
src disappears, dst appears, an existing dst is silently overwritten. -/
def fsRename (st : List (List Char)) (src dst : List Char) : List (List Char) :=
  ((st.erase src).filter (fun n => n ≠ dst)) ++ [dst]

/-- The renamer's main loop over a fixed snapshot of the folder listing
(os.listdir is evaluated once, before any rename), threading the folder
state. -/
def renamerPass (W : Int) (snapshot : List (List Char))
    (st : List (List Char)) : List (List Char) :=
  snapshot.foldl
    (fun s f =>
      match renamerStep W f with
      | some g => fsRename s f g
      | none => s)
    st

/-- One whole run of renamer.py on a folder. -/
def renamerRun (W : Int) (folder : List (List Char)) : List (List Char) :=
  renamerPass W folder folder

/-- math.ceil(a / b) for natural a, b with b positive (the scripts always
divide by the positive constants ATLAS_COLS and CHUNK_SIZE). -/
def ceilNat (a b : Nat) : Nat := (a + b - 1) / b

/-- A manifest rectangle, the value object written for each tile by
tilemapforatlas.py. -/
structure Rect where
  x : Nat
  y : Nat
  width : Nat
  height : Nat
deriving DecidableEq

/-- Python dict assignment d[k] = v: an existing key keeps its position
and gets the new value, a new key is appended. -/
def dictInsert (d : List (List Char × Rect)) (k : List Char) (v : Rect) :
    List (List Char × Rect) :=
  if d.any (fun p => p.1 = k) then
    d.map (fun p => if p.1 = k then (k, v) else p)
  else d ++ [(k, v)]

/-- Python dict lookup d[k] on the association-list model: the value at
the (unique) occurrence of the key. -/
def lookupKey (k : List Char) : List (List Char × Rect) → Option Rect
  | [] => none
  | (k2, v) :: rest => if k2 = k then some v else lookupKey k rest

/-- The comparison used to model sorted(files, key=...): compare the
precomputed integer keys. -/
def keyLe (a b : List Char × Int) : Prop := a.2 ≤ b.2

instance : DecidableRel keyLe := fun a b => Int.decLe a.2 b.2

instance : IsTotal (List Char × Int) keyLe := ⟨fun a b => Int.le_total a.2 b.2⟩

instance : IsTrans (List Char × Int) keyLe := ⟨fun _ _ _ => Int.le_trans⟩

/-- The sort keys of sorted(files, key=lambda x: int(splitext(x)[0])):
CPython evaluates the key of every element up front, left to right, so
the first int() failure aborts before anything is compared; on success
every file is paired with its integer key. -/
def computeKeys : List (List Char) → Option (List (List Char × Int))
  | [] => some []
  | f :: rest =>
    match pyIntOfChars (stemOf f) with
    | none => none
    | some v => (computeKeys rest).map (fun kv => (f, v) :: kv)

/-- tilemapforatlas.py lines 13-16: filter the listing to names whose
lowercase form ends in ".png", compute int(stem) for every kept name (any
failure is an uncaught ValueError that aborts the run before any output),
and sort ascending by that key.  CPython's sort is stable, which a stable
insertion sort models exactly. -/
def packFiles (listing : List (List Char)) : Except Unit (List (List Char)) :=
  match computeKeys (listing.filter isPngCI) with
  | none => .error ()
  | some kv => .ok ((List.insertionSort keyLe kv).map Prod.fst)

/-- The paste calls of the packer loop: the file at 0-based sorted
position i is pasted at pixel origin (i % C * ts, i // C * ts).  The
index argument is the enumerate counter. -/
def placeFrom (C ts : Nat) : Nat → List (List Char) → List (List Char × Nat × Nat)
  | _, [] => []
  | i, f :: rest => (f, i % C * ts, i / C * ts) :: placeFrom C ts (i + 1) rest

/-- The manifest assignments of the packer loop: for the file at sorted
position i, mapping["tile-" + stem] = its placement rectangle. -/
def manifestFrom (C ts : Nat) : Nat → List (List Char × Rect) → List (List Char) →
    List (List Char × Rect)
  | _, d, [] => d
  | i, d, f :: rest =>
    manifestFrom C ts (i + 1)
      (dictInsert d ("tile-".data ++ stemOf f) ⟨i % C * ts, i / C * ts, ts, ts⟩) rest

/-- The outputs of one packer run: atlas canvas size, the paste list, and
the manifest. -/
structure PackOut where
  atlasW : Nat
  atlasH : Nat
  placements : List (List Char × Nat × Nat)
  manifest : List (List Char × Rect)
deriving DecidableEq

/-- main() of tilemapforatlas.py with column count C and tile size ts:
either the uncaught ValueError (no atlas and no manifest are written), or
the canvas dimensions (width C*ts, height ceil(total/C)*ts), the
placements and the manifest. -/
def packOutput (C ts : Nat) (listing : List (List Char)) : Except Unit PackOut :=
  match packFiles listing with
  | .error e => .error e
  | .ok files =>
    .ok ⟨C * ts, ceilNat files.length C * ts,
         placeFrom C ts 0 files, manifestFrom C ts 0 [] files⟩

/-- A source image for the splitter: dimensions and an RGBA pixel map
(the pixel map is total; only the in-bounds part is ever read). -/
structure PImage where
  width : Nat
  height : Nat
  px : Nat → Nat → Nat × Nat × Nat × Nat

/-- Alpha channel of an RGBA pixel. -/
def alphaOf (p : Nat × Nat × Nat × Nat) : Nat := p.2.2.2

/-- tile.getbbox() is None for the crop with top-left (left, upper) and
size tw by th.  Modelled from the Pillow (9.4+) documentation: getbbox on
an RGBA image defaults to alpha_only, so the box is None exactly when
every pixel of the tile has alpha 0. -/
def tileAllTransparent (img : PImage) (left upper tw th : Nat) : Bool :=
  (List.range th).all fun j =>
    (List.range tw).all fun i =>
      alphaOf (img.px (left + i) (upper + j)) == 0

/-- One saved tile of the splitter: its output filename and the top-left
corner of the crop rectangle in the source image (the crop copies the
source pixels of the rectangle of size tw by th at that corner). -/
structure TileOut where
  name : List Char
  left : Nat
  upper : Nat
deriving DecidableEq

/-- The filename f"{x * tile_width}_{y * tile_height}.png" of the tile of
grid cell (x, y). -/
def tileName (tw th x y : Nat) : List Char :=
  natRepr (x * tw) ++ '_' :: (natRepr (y * th) ++ pngChars)

/-- split_tileset of tilesplitter.py: iterate the full grid cells
(y outer, x inner, integer-division bounds, so partial strips at the
right and bottom edges are never visited), optionally drop fully
transparent tiles, and save each kept tile under its coordinate name.
The returned list is in save order; its length is the printed count. -/
def split_tileset (img : PImage) (tw th : Nat) (skipEmpty : Bool) : List TileOut :=
  let tilesX := img.width / tw
  let tilesY := img.height / th
  (List.range tilesY).flatMap fun y =>
    (List.range tilesX).filterMap fun x =>
      let left := x * tw
      let upper := y * th
      if skipEmpty && tileAllTransparent img left upper tw th then none
      else some ⟨tileName tw th x y, left, upper⟩

/-- Source pixel (p, q) lies inside the crop rectangle of a saved tile
(the crop of size tw by th copies exactly these source pixels). -/
def coversPixel (tw th : Nat) (t : TileOut) (p q : Nat) : Prop :=
  t.left ≤ p ∧ p < t.left + tw ∧ t.upper ≤ q ∧ q < t.upper + th

/-- The filename f"grass-chunk-{cx}-{cy}.png" of tilebaker.py. -/
def chunkFileName (cx cy : Nat) : List Char :=
  "grass-chunk-".data ++ natRepr cx ++ '-' :: (natRepr cy ++ pngChars)

/-- One baked chunk: its filename, its square canvas side in pixels, and
the paste positions of the source tile (every cell of the chunk grid). -/
structure ChunkOut where
  name : List Char
  side : Nat
  pastes : List (Nat × Nat)
deriving DecidableEq

/-- The inner double loop of tilebaker.py: the source tile is pasted at
(x * ts, y * ts) for every cell (x, y) of the chunkSize by chunkSize
grid, y outer, x inner. -/
def chunkPastes (chunkSize ts : Nat) : List (Nat × Nat) :=
  (List.range chunkSize).flatMap fun y =>
    (List.range chunkSize).map fun x => (x * ts, y * ts)

/-- The chunk loop of tilebaker.py with map size (mapCols, mapRows) in
tiles, chunk size chunkSize in tiles and tile size ts in pixels: one
chunk image per grid position (cx, cy), cy outer, cx inner, each a square
of side chunkSize * ts fully tiled by the source image. -/
def bakerChunks (mapCols mapRows chunkSize ts : Nat) : List ChunkOut :=
  let chunkCols := ceilNat mapCols chunkSize
  let chunkRows := ceilNat mapRows chunkSize
  (List.range chunkRows).flatMap fun cy =>
    (List.range chunkCols).map fun cx =>
      ⟨chunkFileName cx cy, chunkSize * ts, chunkPastes chunkSize ts⟩

deriving instance DecidableEq for Except

/-- The decimal digit characters. -/
def decChars : List Char := ['0', '1', '2', '3', '4', '5', '6', '7', '8', '9']

theorem digitChar_mem_decChars {m : Nat} (h : m < 10) :
    Nat.digitChar m ∈ decChars := by
  interval_cases m <;> decide

theorem digitVal_digitChar {m : Nat} (h : m < 10) :
    digitVal (Nat.digitChar m) = m := by
  interval_cases m <;> decide

theorem digitsGo_mem {fuel : Nat} : ∀ {n : Nat}, n < fuel →
    ∀ c ∈ digitsGo n fuel, c ∈ decChars := by
  induction fuel with
  | zero => intro n h; omega
  | succ fuel ih =>
    intro n h c hc
    rw [digitsGo] at hc
    by_cases h10 : n < 10
    · rw [if_pos h10] at hc
      rw [List.mem_singleton] at hc
      subst hc
      exact digitChar_mem_decChars h10
    · rw [if_neg h10] at hc
      rcases List.mem_append.mp hc with hc | hc
      · exact ih (by omega) c hc
      · rw [List.mem_singleton] at hc
        subst hc
        exact digitChar_mem_decChars (Nat.mod_lt n (by omega))

theorem natRepr_mem {n : Nat} {c : Char} (hc : c ∈ natRepr n) : c ∈ decChars :=
  digitsGo_mem (Nat.lt_succ_self n) c hc

/-- Value of a digit string read left to right with accumulator a. -/
def valD : List Char → Nat → Nat
  | [], a => a
  | c :: r, a => valD r (a * 10 + digitVal c)

theorem valD_append (l1 l2 : List Char) (a : Nat) :
    valD (l1 ++ l2) a = valD l2 (valD l1 a) := by
  induction l1 generalizing a with
  | nil => rfl
  | cons c r ih => simp [valD, ih]

theorem valD_digitsGo {fuel : Nat} : ∀ {n : Nat}, n < fuel →
    valD (digitsGo n fuel) 0 = n := by
  induction fuel with
  | zero => intro n h; omega
  | succ fuel ih =>
    intro n h
    rw [digitsGo]
    by_cases h10 : n < 10
    · rw [if_pos h10]
      simp [valD, digitVal_digitChar h10]
    · rw [if_neg h10]
      rw [valD_append, ih (by omega)]
      simp [valD, digitVal_digitChar (Nat.mod_lt n (by omega))]
      omega

theorem valD_natRepr (n : Nat) : valD (natRepr n) 0 = n :=
  valD_digitsGo (Nat.lt_succ_self n)

theorem natRepr_inj {m n : Nat} (h : natRepr m = natRepr n) : m = n := by
  have := valD_natRepr m
  rw [h, valD_natRepr] at this
  omega

theorem intRepr_mem {i : Int} {c : Char} (hc : c ∈ intRepr i) :
    c ∈ '-' :: decChars := by
  unfold intRepr at hc
  by_cases hlt : i < 0
  · rw [if_pos hlt] at hc
    rcases List.mem_cons.mp hc with hc | hc
    · subst hc
      exact List.mem_cons_self _ _
    · exact List.mem_cons_of_mem _ (natRepr_mem hc)
  · rw [if_neg hlt] at hc
    exact List.mem_cons_of_mem _ (natRepr_mem hc)

theorem underscore_not_mem_intRepr {i : Int} : '_' ∉ intRepr i := by
  intro h
  have := intRepr_mem h
  revert this
  decide

theorem underscore_not_mem_natRepr {n : Nat} : '_' ∉ natRepr n := by
  intro h
  have := natRepr_mem h
  revert this
  decide

theorem splitOnChar_of_not_mem {sep : Char} {l : List Char} (h : sep ∉ l) :
    splitOnChar sep l = [l] := by
  induction l with
  | nil => rfl
  | cons c rest ih =>
    have hc : ¬ c = sep := fun he => h (he ▸ List.mem_cons_self c rest)
    have hr : sep ∉ rest := fun hm => h (List.mem_cons_of_mem c hm)
    rw [splitOnChar]
    simp only [if_neg hc, ih hr]

theorem splitOnChar_append_sep {sep : Char} {l1 : List Char} (l2 : List Char)
    (h : sep ∉ l1) :
    splitOnChar sep (l1 ++ sep :: l2) = l1 :: splitOnChar sep l2 := by
  induction l1 with
  | nil => simp [splitOnChar]
  | cons c rest ih =>
    have hc : ¬ c = sep := fun he => h (he ▸ List.mem_cons_self c rest)
    have hr : sep ∉ rest := fun hm => h (List.mem_cons_of_mem c hm)
    rw [List.cons_append, splitOnChar]
    simp only [if_neg hc, ih hr]

theorem stemOf_append_png (pre : List Char) : stemOf (pre ++ pngChars) = pre := by
  simp [stemOf, pngChars, List.dropWhile]

theorem endsWithPng_append_png (pre : List Char) :
    endsWithPng (pre ++ pngChars) = true := by
  have h4 : (['g', 'n', 'p', '.'] : List Char).length = 4 := rfl
  simp [endsWithPng, pngChars, List.take_left' h4]

theorem renamerStep_some_shape {W : Int} {f g : List Char}
    (h : renamerStep W f = some g) :
    ∃ x y : Int, g = intRepr (tile_id W x y) ++ pngChars := by
  unfold renamerStep at h
  split at h
  · split at h
    · split at h
      · exact ⟨_, _, (Option.some_inj.mp h).symm⟩
      · cases h
    · cases h
  · cases h

theorem renamerStep_intRepr_png (W t : Int) :
    renamerStep W (intRepr t ++ pngChars) = none := by
  unfold renamerStep
  rw [endsWithPng_append_png, stemOf_append_png,
    splitOnChar_of_not_mem underscore_not_mem_intRepr]
  rfl

theorem renamerStep_target {W : Int} {f g : List Char}
    (h : renamerStep W f = some g) : renamerStep W g = none := by
  obtain ⟨x, y, rfl⟩ := renamerStep_some_shape h
  exact renamerStep_intRepr_png W _

theorem renamerPass_cons (W : Int) (f : List Char) (rest : List (List Char))
    (st : List (List Char)) :
    renamerPass W (f :: rest) st =
      renamerPass W rest
        (match renamerStep W f with
         | some g => fsRename st f g
         | none => st) := rfl

theorem renamerPass_of_none {W : Int} {snap : List (List Char)}
    (h : ∀ f ∈ snap, renamerStep W f = none) (st : List (List Char)) :
    renamerPass W snap st = st := by
  induction snap generalizing st with
  | nil => rfl
  | cons f rest ih =>
    have hf := h f (List.mem_cons_self f rest)
    have hrest : ∀ f2 ∈ rest, renamerStep W f2 = none :=
      fun f2 hf2 => h f2 (List.mem_cons_of_mem f hf2)
    rw [renamerPass_cons, hf]
    exact ih hrest st

theorem fsRename_nodup {st : List (List Char)} (h : st.Nodup)
    (src dst : List Char) : (fsRename st src dst).Nodup := by
  unfold fsRename
  rw [List.nodup_append]
  refine ⟨((h.erase src).filter _), List.nodup_singleton dst, ?_⟩
  intro a ha hb
  rw [List.mem_singleton] at hb
  subst hb
  have := List.of_mem_filter ha
  simp at this

theorem renamerPass_mem {W : Int} : ∀ (snap st : List (List Char)),
    st.Nodup → (∀ f ∈ snap, (renamerStep W f).isSome) →
    ∀ x ∈ renamerPass W snap st,
      (x ∈ st ∧ x ∉ snap) ∨ ∃ f ∈ snap, renamerStep W f = some x := by
  intro snap
  induction snap with
  | nil =>
    intro st _ _ x hx
    exact Or.inl ⟨hx, List.not_mem_nil x⟩
  | cons f rest ih =>
    intro st hst hval x hx
    obtain ⟨g, hg⟩ := Option.isSome_iff_exists.mp (hval f (List.mem_cons_self f rest))
    have hx2 : x ∈ renamerPass W rest (fsRename st f g) := by
      rw [renamerPass_cons, hg] at hx
      exact hx
    have hvr : ∀ f2 ∈ rest, (renamerStep W f2).isSome :=
      fun f2 hf2 => hval f2 (List.mem_cons_of_mem f hf2)
    rcases ih (fsRename st f g) (fsRename_nodup hst f g) hvr x hx2 with ⟨hin, hout⟩ | ⟨f2, hf2, hs2⟩
    · rcases List.mem_append.mp hin with hin2 | hin2
      · have hne : x ≠ g := by
          have := List.of_mem_filter hin2
          simpa using this
        have hxe : x ∈ st.erase f := List.mem_of_mem_filter hin2
        have hxf : x ≠ f ∧ x ∈ st := (hst.mem_erase_iff).mp hxe
        exact Or.inl ⟨hxf.2, by
          intro hmem
          rcases List.mem_cons.mp hmem with he | he
          · exact hxf.1 he
          · exact hout he⟩
      · rw [List.mem_singleton] at hin2
        subst hin2
        exact Or.inr ⟨f, List.mem_cons_self f rest, hg⟩
    · exact Or.inr ⟨f2, List.mem_cons_of_mem f hf2, hs2⟩

/-- Counterexample to C1 as stated: the file 3_4.PNG has a stem that
parses as the two integers 3 and 4 separated by the underscore, yet the
renamer does not rename it, because its extension filter
filename.endswith(".png") is case sensitive. -/
theorem C1_cex_uppercase_extension_not_renamed :
    splitOnChar '_' (stemOf ("3_4.PNG".data)) = ["3".data, "4".data] ∧
    pyIntOfChars ("3".data) = some 3 ∧
    pyIntOfChars ("4".data) = some 4 ∧
    renamerStep 17 ("3_4.PNG".data) = none := by
  decide

/-- C1 (amended): for every file whose name ends in lowercase ".png" and
whose stem parses as two integers x and y separated by the underscore,
the renamer renames it to str(id) + ".png" where
id = floor(y/16) * W + floor(x/16) + 1 and W is the configured column
count. -/
theorem C1_renamer_tile_id_formula (W : Int) (f a b : List Char) (x y : Int)
    (hpng : endsWithPng f = true)
    (hsplit : splitOnChar '_' (stemOf f) = [a, b])
    (ha : pyIntOfChars a = some x) (hb : pyIntOfChars b = some y) :
    renamerStep W f = some (intRepr (y.fdiv 16 * W + x.fdiv 16 + 1) ++ pngChars) := by
  unfold renamerStep
  rw [hpng, hsplit]
  show (match pyIntOfChars a, pyIntOfChars b with
    | some x, some y => some (intRepr (tile_id W x y) ++ pngChars)
    | _, _ => none) = _
  rw [ha, hb]
  rfl

/-- Witness for C1: the file 3_4.png with W = 17 is renamed to 1.png. -/
theorem C1_witness :
    endsWithPng ("3_4.png".data) = true ∧
    splitOnChar '_' (stemOf ("3_4.png".data)) = ["3".data, "4".data] ∧
    pyIntOfChars ("3".data) = some 3 ∧
    pyIntOfChars ("4".data) = some 4 ∧
    renamerStep 17 ("3_4.png".data) =
      some (intRepr ((4 : Int).fdiv 16 * 17 + (3 : Int).fdiv 16 + 1) ++ pngChars) :=
  ⟨by decide, by decide, by decide, by decide,
    C1_renamer_tile_id_formula 17 ("3_4.png".data) ("3".data) ("4".data) 3 4
      (by decide) (by decide) (by decide) (by decide)⟩

/-- Counterexample to C8 as stated: the renamer processes 5_6.png but
skips 5_6.PNG, so its extension matching is not case-insensitive; the
atlas packer would select 5_6.PNG. -/
theorem C8_cex_renamer_case_sensitive :
    renamerStep 17 ("5_6.png".data) = some ("1.png".data) ∧
    renamerStep 17 ("5_6.PNG".data) = none ∧
    isPngCI ("5_6.PNG".data) = true := by
  decide

/-- C8 (amended): the atlas packer selects files with both lowercase
".png" and uppercase ".PNG" extensions (its filter lowercases the name
first), while the renamer selects only names ending in the lowercase
".png" and skips every name ending in ".PNG". -/
theorem C8_extension_case_policy (W : Int) (pre : List Char) :
    isPngCI (pre ++ ".PNG".data) = true ∧
    isPngCI (pre ++ pngChars) = true ∧
    endsWithPng (pre ++ pngChars) = true ∧
    endsWithPng (pre ++ ".PNG".data) = false ∧
    renamerStep W (pre ++ ".PNG".data) = none := by
  have hup : endsWithPng (pre ++ ".PNG".data) = false := by
    have h4 : (['G', 'N', 'P', '.'] : List Char).length = 4 := rfl
    show ((pre ++ ".PNG".data).reverse.take 4 == ['g', 'n', 'p', '.']) = false
    rw [show (".PNG".data : List Char) = ['.', 'P', 'N', 'G'] from rfl,
      List.reverse_append]
    rw [show (['.', 'P', 'N', 'G'] : List Char).reverse = ['G', 'N', 'P', '.'] from rfl,
      List.take_left' h4]
    rfl
  refine ⟨?_, ?_, endsWithPng_append_png pre, hup, ?_⟩
  · show endsWithPng ((pre ++ ".PNG".data).map Char.toLower) = true
    rw [List.map_append,
      show (".PNG".data : List Char).map Char.toLower = pngChars from rfl]
    exact endsWithPng_append_png _
  · show endsWithPng ((pre ++ pngChars).map Char.toLower) = true
    rw [List.map_append,
      show (pngChars : List Char).map Char.toLower = pngChars from rfl]
    exact endsWithPng_append_png _
  · unfold renamerStep
    rw [hup]
    rfl

/-- C9: on a folder of distinct files that the renamer all accepts, whose
computed target names are pairwise distinct and collide with no
pre-existing filename, every output name of the first run is skipped by a
second run, and running the renamer twice leaves the folder exactly as
one run leaves it. -/
theorem C9_renamer_idempotent (W : Int) (folder : List (List Char))
    (h1 : folder.Nodup)
    (h2 : ∀ f ∈ folder, (renamerStep W f).isSome)
    (h3 : (folder.filterMap (renamerStep W)).Nodup)
    (h4 : ∀ g ∈ folder.filterMap (renamerStep W), g ∉ folder) :
    (∀ g ∈ renamerRun W folder, renamerStep W g = none) ∧
    renamerRun W (renamerRun W folder) = renamerRun W folder := by
  have hnone : ∀ g ∈ renamerRun W folder, renamerStep W g = none := by
    intro g hg
    rcases renamerPass_mem folder folder h1 h2 g hg with ⟨hin, hout⟩ | ⟨f, _, hs⟩
    · exact absurd hin hout
    · exact renamerStep_target hs
  exact ⟨hnone, renamerPass_of_none hnone _⟩

/-- Witness for C9: a folder of two valid files, W = 17; the targets
1.png and 20.png are distinct and absent from the folder. -/
theorem C9_witness :
    (["0_0.png".data, "32_16.png".data] : List (List Char)).Nodup ∧
    (∀ f ∈ (["0_0.png".data, "32_16.png".data] : List (List Char)),
      (renamerStep 17 f).isSome) ∧
    ((["0_0.png".data, "32_16.png".data] : List (List Char)).filterMap
      (renamerStep 17)).Nodup ∧
    (∀ g ∈ (["0_0.png".data, "32_16.png".data] : List (List Char)).filterMap
      (renamerStep 17),
      g ∉ (["0_0.png".data, "32_16.png".data] : List (List Char))) ∧
    ((∀ g ∈ renamerRun 17 ["0_0.png".data, "32_16.png".data],
        renamerStep 17 g = none) ∧
      renamerRun 17 (renamerRun 17 ["0_0.png".data, "32_16.png".data]) =
        renamerRun 17 ["0_0.png".data, "32_16.png".data]) :=
  ⟨by decide, by decide, by decide, by decide,
    C9_renamer_idempotent 17 ["0_0.png".data, "32_16.png".data]
      (by decide) (by decide) (by decide) (by decide)⟩

theorem flatMap_range_length {α : Type} (f : Nat → List α) (L : Nat)
    (hL : ∀ y, (f y).length = L) (n : Nat) :
    ((List.range n).flatMap f).length = n * L := by
  induction n with
  | zero => simp
  | succ n ih =>
    rw [List.range_succ, List.flatMap_append, List.length_append, ih]
    simp [hL n, Nat.succ_mul]

theorem flatMap_range_getElem? {α : Type} (f : Nat → List α) (L : Nat)
    (hL : ∀ y, (f y).length = L) (n : Nat) :
    ∀ k, k < n * L → ((List.range n).flatMap f)[k]? = (f (k / L))[k % L]? := by
  induction n with
  | zero => intro k hk; omega
  | succ n ih =>
    intro k hk
    rw [Nat.succ_mul] at hk
    rw [List.range_succ, List.flatMap_append, List.getElem?_append,
      flatMap_range_length f L hL n]
    by_cases hcase : k < n * L
    · rw [if_pos hcase]
      exact ih k hcase
    · rw [if_neg hcase]
      have hdiv : k / L = n :=
        Nat.div_eq_of_lt_le (by omega) (by rw [Nat.succ_mul]; omega)
      have hmod : k % L = k - n * L := by
        have h1 := Nat.mod_add_div k L
        rw [hdiv] at h1
        have h2 : L * n = n * L := Nat.mul_comm L n
        omega
      rw [hdiv, hmod]
      simp

/-- C3: with skip_empty false and positive tile sizes, the splitter
produces exactly floor(W/tw) * floor(H/th) tiles; the k-th saved tile
(row-major, y outer, x inner) is grid cell (k mod tilesX, k div tilesX)
saved under the name str(x*tw) + "_" + str(y*th) + ".png" with crop
corner (x*tw, y*th); and no source pixel of a partial trailing strip lies
in the crop rectangle of any output tile. -/
theorem C3_splitter_full_grid (img : PImage) (tw th : Nat)
    (htw : 1 ≤ tw) (hth : 1 ≤ th) :
    (split_tileset img tw th false).length = (img.width / tw) * (img.height / th) ∧
    (∀ k, k < (img.height / th) * (img.width / tw) →
      (split_tileset img tw th false)[k]? =
        some ⟨tileName tw th (k % (img.width / tw)) (k / (img.width / tw)),
              (k % (img.width / tw)) * tw, (k / (img.width / tw)) * th⟩) ∧
    (∀ p q, (img.width / tw) * tw ≤ p ∨ (img.height / th) * th ≤ q →
      ∀ t ∈ split_tileset img tw th false, ¬ coversPixel tw th t p q) := by
  have hinner : ∀ y : Nat,
      ((List.range (img.width / tw)).filterMap fun x =>
        if false && tileAllTransparent img (x * tw) (y * th) tw th then none
        else some (⟨tileName tw th x y, x * tw, y * th⟩ : TileOut)) =
      (List.range (img.width / tw)).map fun x =>
        (⟨tileName tw th x y, x * tw, y * th⟩ : TileOut) := by
    intro y
    simp only [Bool.false_and, Bool.false_eq_true, if_false]
    exact congrFun (List.filterMap_eq_map fun x =>
      (⟨tileName tw th x y, x * tw, y * th⟩ : TileOut)) _
  have hlen : ∀ y : Nat,
      ((List.range (img.width / tw)).filterMap fun x =>
        if false && tileAllTransparent img (x * tw) (y * th) tw th then none
        else some (⟨tileName tw th x y, x * tw, y * th⟩ : TileOut)).length =
      img.width / tw := by
    intro y
    rw [hinner y]
    simp
  refine ⟨?_, ?_, ?_⟩
  · show ((List.range (img.height / th)).flatMap _).length = _
    rw [flatMap_range_length _ (img.width / tw) hlen]
    exact Nat.mul_comm _ _
  · intro k hk
    show ((List.range (img.height / th)).flatMap _)[k]? = _
    rw [flatMap_range_getElem? _ (img.width / tw) hlen _ k hk, hinner]
    have hxlt : k % (img.width / tw) < img.width / tw := by
      rcases Nat.eq_zero_or_pos (img.width / tw) with h0 | h
      · rw [h0, Nat.mul_zero] at hk
        omega
      · exact Nat.mod_lt _ h
    rw [List.getElem?_map, List.getElem?_range hxlt]
    rfl
  · intro p q hpq t ht
    have hmem : ∃ y, y < img.height / th ∧ ∃ x, x < img.width / tw ∧
        t = (⟨tileName tw th x y, x * tw, y * th⟩ : TileOut) := by
      simp only [split_tileset, List.mem_flatMap, List.mem_filterMap,
        List.mem_range] at ht
      obtain ⟨y, hy, x, hx, hxt⟩ := ht
      simp only [Bool.false_and, if_neg] at hxt
      exact ⟨y, hy, x, hx, by
        simp only [Bool.false_and, Bool.false_eq_true, if_false,
          Option.some_inj] at hxt
        exact hxt.symm⟩
    obtain ⟨y, hy, x, hx, rfl⟩ := hmem
    intro hcov
    obtain ⟨h1, h2, h3, h4⟩ := hcov
    simp only at h1 h2 h3 h4
    rcases hpq with hp | hq
    · have : (x + 1) * tw ≤ (img.width / tw) * tw :=
        Nat.mul_le_mul_right tw hx
      have hlt : p < (x + 1) * tw := by rw [Nat.add_mul]; omega
      omega
    · have : (y + 1) * th ≤ (img.height / th) * th :=
        Nat.mul_le_mul_right th hy
      have hlt : q < (y + 1) * th := by rw [Nat.add_mul]; omega
      omega

/-- Witness for C3: a 33 by 17 opaque image split at 16 by 16. -/
theorem C3_witness :
    1 ≤ 16 ∧
    ((split_tileset ⟨33, 17, fun _ _ => (0, 0, 0, 255)⟩ 16 16 false).length = 2 ∧
      (∀ k, k < 1 * 2 →
        (split_tileset ⟨33, 17, fun _ _ => (0, 0, 0, 255)⟩ 16 16 false)[k]? =
          some ⟨tileName 16 16 (k % 2) (k / 2), (k % 2) * 16, (k / 2) * 16⟩) ∧
      (∀ p q, 2 * 16 ≤ p ∨ 1 * 16 ≤ q →
        ∀ t ∈ split_tileset ⟨33, 17, fun _ _ => (0, 0, 0, 255)⟩ 16 16 false,
          ¬ coversPixel 16 16 t p q)) :=
  ⟨by decide,
    C3_splitter_full_grid ⟨33, 17, fun _ _ => (0, 0, 0, 255)⟩ 16 16
      (by decide) (by decide)⟩

theorem tileAllTransparent_iff (img : PImage) (l u tw th : Nat) :
    tileAllTransparent img l u tw th = true ↔
      ∀ i < tw, ∀ j < th, alphaOf (img.px (l + i) (u + j)) = 0 := by
  simp only [tileAllTransparent, List.all_eq_true, List.mem_range, beq_iff_eq]
  constructor
  · intro h i hi j hj
    exact h j hj i hi
  · intro h j hj i hi
    exact h i hi j hj

theorem split_tileset_mem_iff (img : PImage) (tw th : Nat) (se : Bool)
    (t : TileOut) :
    t ∈ split_tileset img tw th se ↔
      ∃ y < img.height / th, ∃ x < img.width / tw,
        (se && tileAllTransparent img (x * tw) (y * th) tw th) = false ∧
        t = ⟨tileName tw th x y, x * tw, y * th⟩ := by
  simp only [split_tileset, List.mem_flatMap, List.mem_filterMap, List.mem_range]
  constructor
  · rintro ⟨y, hy, x, hx, hif⟩
    cases hb : (se && tileAllTransparent img (x * tw) (y * th) tw th)
    · rw [hb] at hif
      simp only [Bool.false_eq_true, if_false, Option.some_inj] at hif
      exact ⟨y, hy, x, hx, hb, hif.symm⟩
    · rw [hb] at hif
      simp at hif
  · rintro ⟨y, hy, x, hx, hb, rfl⟩
    refine ⟨y, hy, x, hx, ?_⟩
    rw [hb]
    simp

/-- C4: with skip_empty true, a grid cell's tile is saved if and only if
some pixel of the cell has nonzero alpha (the emptiness test getbbox,
with the Pillow default of alpha_only for RGBA, scans every alpha value
of the tile); consequently an all-transparent source yields no saved
tiles at all. -/
theorem C4_skip_empty_alpha_scan (img : PImage) (tw th : Nat) :
    (∀ x y, x < img.width / tw → y < img.height / th →
      ((∃ t ∈ split_tileset img tw th true,
          t.left = x * tw ∧ t.upper = y * th) ↔
        ¬ ∀ i < tw, ∀ j < th, alphaOf (img.px (x * tw + i) (y * th + j)) = 0)) ∧
    ((∀ p q, alphaOf (img.px p q) = 0) → split_tileset img tw th true = []) := by
  constructor
  · intro x y hx hy
    rw [← tileAllTransparent_iff]
    constructor
    · rintro ⟨t, ht, hleft, hupper⟩ htr
      rw [split_tileset_mem_iff] at ht
      obtain ⟨y2, hy2, x2, hx2, hb, rfl⟩ := ht
      simp only at hleft hupper
      rw [Bool.true_and, hleft, hupper, htr] at hb
      cases hb
    · intro hne
      have hb : tileAllTransparent img (x * tw) (y * th) tw th = false := by
        cases hval : tileAllTransparent img (x * tw) (y * th) tw th
        · rfl
        · exact absurd hval hne
      refine ⟨⟨tileName tw th x y, x * tw, y * th⟩, ?_, rfl, rfl⟩
      rw [split_tileset_mem_iff]
      exact ⟨y, hy, x, hx, by rw [Bool.true_and, hb], rfl⟩
  · intro hall
    rw [List.eq_nil_iff_forall_not_mem]
    intro t ht
    rw [split_tileset_mem_iff] at ht
    obtain ⟨y, _, x, _, hb, _⟩ := ht
    rw [Bool.true_and,
      (tileAllTransparent_iff img (x * tw) (y * th) tw th).mpr
        (fun i _ j _ => hall _ _)] at hb
    cases hb

theorem tileName_inj {tw th : Nat} (htw : 1 ≤ tw) (hth : 1 ≤ th)
    {x y x2 y2 : Nat} (h : tileName tw th x y = tileName tw th x2 y2) :
    x = x2 ∧ y = y2 := by
  have hno2 : ∀ m : Nat, '_' ∉ natRepr m ++ pngChars := by
    intro m hm
    rcases List.mem_append.mp hm with hm | hm
    · exact underscore_not_mem_natRepr hm
    · revert hm
      decide
  have esplit : ∀ a b : Nat, splitOnChar '_' (tileName tw th a b) =
      [natRepr (a * tw), natRepr (b * th) ++ pngChars] := by
    intro a b
    unfold tileName
    rw [splitOnChar_append_sep _ underscore_not_mem_natRepr,
      splitOnChar_of_not_mem (hno2 (b * th))]
  have h2 := congrArg (splitOnChar '_') h
  rw [esplit x y, esplit x2 y2] at h2
  injection h2 with ha h2
  injection h2 with hb _
  constructor
  · exact Nat.eq_of_mul_eq_mul_right (by omega) (natRepr_inj ha)
  · have hyy := natRepr_inj (List.append_cancel_right hb)
    exact Nat.eq_of_mul_eq_mul_right (by omega) hyy

/-- C10: with positive tile sizes the cell-to-filename map of the
splitter is injective, and within one run the list of saved filenames has
no duplicate, so no saved tile overwrites another saved tile. -/
theorem C10_split_names_nodup (tw th : Nat) (htw : 1 ≤ tw) (hth : 1 ≤ th) :
    (∀ x y x2 y2 : Nat,
      tileName tw th x y = tileName tw th x2 y2 → x = x2 ∧ y = y2) ∧
    ∀ (img : PImage) (se : Bool),
      ((split_tileset img tw th se).map TileOut.name).Nodup := by
  refine ⟨fun x y x2 y2 h => tileName_inj htw hth h, ?_⟩
  intro img se
  show (List.map TileOut.name ((List.range (img.height / th)).flatMap _)).Nodup
  rw [List.map_flatMap, List.nodup_flatMap]
  have hsome : ∀ (x y : Nat) (b : List Char),
      Option.map TileOut.name
        (if se && tileAllTransparent img (x * tw) (y * th) tw th then none
         else some (⟨tileName tw th x y, x * tw, y * th⟩ : TileOut)) = some b →
      b = tileName tw th x y := by
    intro x y b hb
    cases hc : (se && tileAllTransparent img (x * tw) (y * th) tw th) <;>
      rw [hc] at hb <;> simp at hb
    exact hb.symm
  constructor
  · intro y _
    rw [List.map_filterMap]
    refine List.Nodup.filterMap ?_ (List.nodup_range _)
    intro a a2 b hb hb2
    have e1 := hsome a y b hb
    have e2 := hsome a2 y b hb2
    exact (tileName_inj htw hth (e1 ▸ e2 : tileName tw th a y = tileName tw th a2 y)).1
  · refine List.Pairwise.imp ?_ (List.nodup_range (img.height / th))
    intro y y2 hne a ha ha2
    simp only [List.map_filterMap, List.mem_filterMap, List.mem_range] at ha ha2
    obtain ⟨x, _, hfa⟩ := ha
    obtain ⟨x2, _, hfa2⟩ := ha2
    have e1 := hsome x y a hfa
    have e2 := hsome x2 y2 a hfa2
    exact hne (tileName_inj htw hth (e1 ▸ e2 : tileName tw th x y = tileName tw th x2 y2)).2

/-- Witness for C10: tile size 16 by 16 on a 33 by 17 image. -/
theorem C10_witness :
    1 ≤ 16 ∧
    ((∀ x y x2 y2 : Nat,
        tileName 16 16 x y = tileName 16 16 x2 y2 → x = x2 ∧ y = y2) ∧
      ∀ (img : PImage) (se : Bool),
        ((split_tileset img 16 16 se).map TileOut.name).Nodup) :=
  ⟨by decide, C10_split_names_nodup 16 16 (by decide) (by decide)⟩

theorem computeKeys_none {l : List (List Char)} {f : List Char}
    (hf : f ∈ l) (hbad : pyIntOfChars (stemOf f) = none) :
    computeKeys l = none := by
  induction l with
  | nil => cases hf
  | cons g rest ih =>
    rcases List.mem_cons.mp hf with he | he
    · subst he
      unfold computeKeys
      rw [hbad]
    · unfold computeKeys
      cases hg : pyIntOfChars (stemOf g)
      · rfl
      · rw [ih he]
        rfl

theorem renamerPass_skip {W : Int} {g : List Char}
    (hg : renamerStep W g = none) :
    ∀ (l1 l2 st : List (List Char)),
      renamerPass W (l1 ++ g :: l2) st = renamerPass W (l1 ++ l2) st := by
  intro l1
  induction l1 with
  | nil =>
    intro l2 st
    rw [List.nil_append, List.nil_append, renamerPass_cons, hg]
  | cons f rest ih =>
    intro l2 st
    rw [List.cons_append, List.cons_append, renamerPass_cons, renamerPass_cons]
    exact ih l2 _

/-- C5: a PNG-named file whose stem int() cannot parse makes the atlas
packer abort the entire run with no atlas and no manifest produced, while
the renamer on a file it cannot parse leaves the rest of its batch
exactly as if the bad file were absent. -/
theorem C5_parse_failure_policy (C ts : Nat) (listing : List (List Char))
    (f : List Char) (hf : f ∈ listing) (hpng : isPngCI f = true)
    (hbad : pyIntOfChars (stemOf f) = none)
    (W : Int) (g : List Char) (hskip : renamerStep W g = none)
    (l1 l2 st : List (List Char)) :
    packOutput C ts listing = .error () ∧
    renamerPass W (l1 ++ g :: l2) st = renamerPass W (l1 ++ l2) st := by
  constructor
  · have hmem : f ∈ listing.filter isPngCI := List.mem_filter.mpr ⟨hf, hpng⟩
    unfold packOutput packFiles
    rw [computeKeys_none hmem hbad]
  · exact renamerPass_skip hskip l1 l2 st

/-- Witness for C5: the packer aborts on the folder containing ab.png;
the renamer skips xx.png and still renames its neighbours. -/
theorem C5_witness :
    ("ab.png".data ∈ (["ab.png".data] : List (List Char))) ∧
    isPngCI ("ab.png".data) = true ∧
    pyIntOfChars (stemOf ("ab.png".data)) = none ∧
    renamerStep 17 ("xx.png".data) = none ∧
    (packOutput 16 16 ["ab.png".data] = .error () ∧
      renamerPass 17 (["0_0.png".data] ++ "xx.png".data :: ["16_0.png".data])
          ["0_0.png".data, "xx.png".data, "16_0.png".data] =
        renamerPass 17 (["0_0.png".data] ++ ["16_0.png".data])
          ["0_0.png".data, "xx.png".data, "16_0.png".data]) :=
  ⟨by decide, by decide, by decide, by decide,
    C5_parse_failure_policy 16 16 ["ab.png".data] ("ab.png".data)
      (by decide) (by decide) (by decide) 17 ("xx.png".data) (by decide)
      ["0_0.png".data] ["16_0.png".data]
      ["0_0.png".data, "xx.png".data, "16_0.png".data]⟩

/-- C7: the chunk baker emits one chunk per cell of the
ceil(mapCols/chunkSize) by ceil(mapRows/chunkSize) chunk grid (the code
uses the single constant CHUNK_SIZE for both chunk dimensions), each a
square of side chunkSize * tileSize named grass-chunk-cx-cy.png, with
the source tile pasted at every cell of every chunk. -/
theorem C7_chunk_baker (mapCols mapRows chunkSize ts : Nat)
    (hcs : 1 ≤ chunkSize) :
    (bakerChunks mapCols mapRows chunkSize ts).length =
      ceilNat mapCols chunkSize * ceilNat mapRows chunkSize ∧
    (bakerChunks mapCols mapRows chunkSize ts).map ChunkOut.name =
      (List.range (ceilNat mapRows chunkSize)).flatMap (fun cy =>
        (List.range (ceilNat mapCols chunkSize)).map fun cx =>
          chunkFileName cx cy) ∧
    ∀ ch ∈ bakerChunks mapCols mapRows chunkSize ts,
      ch.side = chunkSize * ts ∧
      ∀ x < chunkSize, ∀ y < chunkSize, (x * ts, y * ts) ∈ ch.pastes := by
  refine ⟨?_, ?_, ?_⟩
  · show ((List.range (ceilNat mapRows chunkSize)).flatMap _).length = _
    rw [flatMap_range_length _ (ceilNat mapCols chunkSize)
      (fun y => by simp)]
    exact Nat.mul_comm _ _
  · show List.map _ ((List.range (ceilNat mapRows chunkSize)).flatMap _) = _
    rw [List.map_flatMap]
    simp only [List.map_map]
    rfl
  · intro ch hch
    simp only [bakerChunks, List.mem_flatMap, List.mem_map, List.mem_range] at hch
    obtain ⟨cy, _, cx, _, rfl⟩ := hch
    refine ⟨rfl, ?_⟩
    intro x hx y hy
    simp only [chunkPastes, List.mem_flatMap, List.mem_map, List.mem_range]
    exact ⟨y, hy, x, hx, rfl⟩

/-- Witness for C7: the configured values mapCols = mapRows = 16,
chunkSize = 16, tileSize = 16 give exactly one chunk, named
grass-chunk-0-0.png, of side 256, fully pasted. -/
theorem C7_witness :
    1 ≤ 16 ∧
    ((bakerChunks 16 16 16 16).length = ceilNat 16 16 * ceilNat 16 16 ∧
      (bakerChunks 16 16 16 16).map ChunkOut.name =
        (List.range (ceilNat 16 16)).flatMap (fun cy =>
          (List.range (ceilNat 16 16)).map fun cx => chunkFileName cx cy) ∧
      ∀ ch ∈ bakerChunks 16 16 16 16,
        ch.side = 16 * 16 ∧
        ∀ x < 16, ∀ y < 16, (x * 16, y * 16) ∈ ch.pastes) ∧
    (bakerChunks 16 16 16 16).length = 1 ∧
    (bakerChunks 16 16 16 16).map ChunkOut.name = ["grass-chunk-0-0.png".data] ∧
    (bakerChunks 16 16 16 16).map ChunkOut.side = [256] :=
  ⟨by decide, C7_chunk_baker 16 16 16 16 (by decide),
    by decide, by decide, by decide⟩

/-- The manifest key "tile-" + stem written by tilemapforatlas.py. -/
def tileKey (f : List Char) : List Char := "tile-".data ++ stemOf f

theorem placeFrom_getElem? (C ts : Nat) :
    ∀ (l : List (List Char)) (j i : Nat) (hi : i < l.length),
      (placeFrom C ts j l)[i]? =
        some (l[i], (j + i) % C * ts, (j + i) / C * ts) := by
  intro l
  induction l with
  | nil => intro j i hi; simp at hi
  | cons f rest ih =>
    intro j i hi
    cases i with
    | zero => simp [placeFrom]
    | succ i =>
      have hi2 : i < rest.length := by simpa using hi
      rw [show placeFrom C ts j (f :: rest) =
        (f, j % C * ts, j / C * ts) :: placeFrom C ts (j + 1) rest from rfl]
      rw [List.getElem?_cons_succ, ih (j + 1) i hi2, List.getElem_cons_succ]
      have he : j + 1 + i = j + (i + 1) := by omega
      rw [he]

/-- A Python dict update with a fresh key appends the pair. -/
theorem dictInsert_fresh {d : List (List Char × Rect)} {k : List Char}
    (h : ∀ p ∈ d, p.1 ≠ k) (v : Rect) : dictInsert d k v = d ++ [(k, v)] := by
  unfold dictInsert
  rw [if_neg]
  intro hany
  rw [List.any_eq_true] at hany
  obtain ⟨p, hp, he⟩ := hany
  exact h p hp (by simpa using he)

/-- The manifest entries in write order, when no key collision occurs. -/
def manifestPlain (C ts : Nat) : Nat → List (List Char) → List (List Char × Rect)
  | _, [] => []
  | j, f :: rest =>
    (tileKey f, ⟨j % C * ts, j / C * ts, ts, ts⟩) :: manifestPlain C ts (j + 1) rest

theorem manifestFrom_eq_plain (C ts : Nat) :
    ∀ (l : List (List Char)) (j : Nat) (d : List (List Char × Rect)),
      (∀ f ∈ l, ∀ p ∈ d, p.1 ≠ tileKey f) →
      (l.map tileKey).Nodup →
      manifestFrom C ts j d l = d ++ manifestPlain C ts j l := by
  intro l
  induction l with
  | nil => intro j d _ _; simp [manifestFrom, manifestPlain]
  | cons f rest ih =>
    intro j d hdisj hnodup
    show manifestFrom C ts (j + 1) (dictInsert d (tileKey f) _) rest = _
    rw [dictInsert_fresh (fun p hp => hdisj f (List.mem_cons_self f rest) p hp) _]
    rw [List.map_cons, List.nodup_cons] at hnodup
    rw [ih (j + 1) _ ?_ hnodup.2]
    · rw [List.append_assoc]
      rfl
    · intro f2 hf2 p hp
      rcases List.mem_append.mp hp with hp | hp
      · exact hdisj f2 (List.mem_cons_of_mem f hf2) p hp
      · rw [List.mem_singleton] at hp
        subst hp
        intro he
        have he2 : tileKey f = tileKey f2 := he
        exact hnodup.1 (by rw [he2]; exact List.mem_map_of_mem tileKey hf2)

theorem lookupKey_manifestPlain (C ts : Nat) :
    ∀ (l : List (List Char)) (j i : Nat) (hi : i < l.length),
      (l.map tileKey).Nodup →
      lookupKey (tileKey (l[i])) (manifestPlain C ts j l) =
        some ⟨(j + i) % C * ts, (j + i) / C * ts, ts, ts⟩ := by
  intro l
  induction l with
  | nil => intro j i hi; simp at hi
  | cons f rest ih =>
    intro j i hi hnodup
    rw [List.map_cons, List.nodup_cons] at hnodup
    cases i with
    | zero =>
      show lookupKey (tileKey f) _ = _
      unfold manifestPlain lookupKey
      rw [if_pos rfl]
      simp
    | succ i =>
      have hi2 : i < rest.length := by simpa using hi
      show lookupKey (tileKey rest[i]) _ = _
      unfold manifestPlain lookupKey
      rw [if_neg, ih (j + 1) i hi2 hnodup.2]
      · have : j + 1 + i = j + (i + 1) := by omega
        rw [this]
      · intro he
        exact hnodup.1 (he ▸ List.mem_map_of_mem tileKey (rest.getElem_mem hi2))

theorem tileKey_nodup {files : List (List Char)}
    (h : (files.map stemOf).Nodup) : (files.map tileKey).Nodup := by
  have he : files.map tileKey =
      (files.map stemOf).map (fun s => "tile-".data ++ s) := by
    rw [List.map_map]
    rfl
  rw [he]
  exact h.map (fun a b hab => List.append_cancel_left hab)

/-- Counterexample to C2 as stated: in a folder holding both 1.png and
1.PNG (two tile files with integer stems), the tile at sorted position 0
is 1.png, but its manifest entry tile-1 holds the rectangle of position
1, because the second file overwrote the shared dict key. -/
theorem C2_cex_duplicate_stems :
    packFiles ["1.png".data, "1.PNG".data] = .ok ["1.png".data, "1.PNG".data] ∧
    stemOf ("1.png".data) = stemOf ("1.PNG".data) ∧
    (packOutput 16 16 ["1.png".data, "1.PNG".data]).map
      (fun P => lookupKey (tileKey ("1.png".data)) P.manifest) =
      .ok (some ⟨1 % 16 * 16, 1 / 16 * 16, 16, 16⟩) ∧
    (⟨1 % 16 * 16, 1 / 16 * 16, 16, 16⟩ : Rect) ≠
      ⟨0 % 16 * 16, 0 / 16 * 16, 16, 16⟩ := by
  decide

/-- C2 (amended): for a listing the packer accepts whose sorted files
have pairwise distinct stems, with at least one tile and a positive
column count, the run succeeds with canvas width C * ts and height
ceil(N / C) * ts, the tile at sorted position i is pasted at
(i mod C * ts, i div C * ts), and the manifest entry tile-stem of that
tile is exactly that placement rectangle of size ts by ts. -/
theorem C2_atlas_layout (C ts : Nat) (hC : 1 ≤ C)
    (listing files : List (List Char))
    (hfiles : packFiles listing = .ok files)
    (hN : 1 ≤ files.length)
    (hstems : (files.map stemOf).Nodup) :
    packOutput C ts listing = .ok ⟨C * ts, ceilNat files.length C * ts,
      placeFrom C ts 0 files, manifestFrom C ts 0 [] files⟩ ∧
    ∀ i (hi : i < files.length),
      (placeFrom C ts 0 files)[i]? =
        some (files[i], i % C * ts, i / C * ts) ∧
      lookupKey (tileKey files[i]) (manifestFrom C ts 0 [] files) =
        some ⟨i % C * ts, i / C * ts, ts, ts⟩ := by
  have hkeys := tileKey_nodup hstems
  constructor
  · unfold packOutput
    rw [hfiles]
  · intro i hi
    constructor
    · have hp := placeFrom_getElem? C ts files 0 i hi
      simpa using hp
    · rw [manifestFrom_eq_plain C ts files 0 []
        (fun f _ p hp => absurd hp (List.not_mem_nil p)) hkeys,
        List.nil_append]
      have hl := lookupKey_manifestPlain C ts files 0 i hi hkeys
      simpa using hl

/-- Witness for C2: the folder 2.png, 1.png packed at C = 16, ts = 16. -/
theorem C2_witness :
    1 ≤ 16 ∧
    packFiles ["2.png".data, "1.png".data] = .ok ["1.png".data, "2.png".data] ∧
    1 ≤ (["1.png".data, "2.png".data] : List (List Char)).length ∧
    ((["1.png".data, "2.png".data] : List (List Char)).map stemOf).Nodup ∧
    (packOutput 16 16 ["2.png".data, "1.png".data] =
      .ok ⟨16 * 16,
        ceilNat (["1.png".data, "2.png".data] : List (List Char)).length 16 * 16,
        placeFrom 16 16 0 ["1.png".data, "2.png".data],
        manifestFrom 16 16 0 [] ["1.png".data, "2.png".data]⟩ ∧
      ∀ i (hi : i < (["1.png".data, "2.png".data] : List (List Char)).length),
        (placeFrom 16 16 0 ["1.png".data, "2.png".data])[i]? =
          some ((["1.png".data, "2.png".data] : List (List Char))[i],
            i % 16 * 16, i / 16 * 16) ∧
        lookupKey (tileKey (["1.png".data, "2.png".data] :
            List (List Char))[i])
            (manifestFrom 16 16 0 [] ["1.png".data, "2.png".data]) =
          some ⟨i % 16 * 16, i / 16 * 16, 16, 16⟩) :=
  ⟨by decide, by decide, by decide, by decide,
    C2_atlas_layout 16 16 (by decide) ["2.png".data, "1.png".data]
      ["1.png".data, "2.png".data] (by decide) (by decide) (by decide)⟩

/-- The integer sort key of a filename (meaningful when int() succeeds on
its stem). -/
def keyOf (f : List Char) : Int := (pyIntOfChars (stemOf f)).getD 0

/-- Strict comparison of sort keys. -/
def keyLt (a b : List Char × Int) : Prop := a.2 < b.2

instance : IsAntisymm (List Char × Int) keyLt :=
  ⟨fun a b h1 h2 => absurd (lt_trans h1 h2) (lt_irrefl a.2)⟩

theorem computeKeys_all_some {l : List (List Char)}
    (h : ∀ f ∈ l, (pyIntOfChars (stemOf f)).isSome) :
    computeKeys l = some (l.map fun f => (f, keyOf f)) := by
  induction l with
  | nil => rfl
  | cons f rest ih =>
    obtain ⟨v, hv⟩ :=
      Option.isSome_iff_exists.mp (h f (List.mem_cons_self f rest))
    unfold computeKeys
    rw [hv, ih (fun g hg => h g (List.mem_cons_of_mem f hg))]
    simp [keyOf, hv]

theorem nodup_map_pairwise {α β : Type} {g : α → β} {l : List α}
    (h : (l.map g).Nodup) : l.Pairwise (fun a b => g a ≠ g b) := by
  induction l with
  | nil => exact List.Pairwise.nil
  | cons a rest ih =>
    rw [List.map_cons, List.nodup_cons] at h
    exact List.Pairwise.cons
      (fun b hb hab => h.1 (by rw [hab]; exact List.mem_map_of_mem g hb))
      (ih h.2)

/-- Counterexample to C6 as stated: 1.png and 01.png have equal integer
stems (both 1), Python's stable sort therefore keeps the listing order,
and the two listing orders of the same set of files produce different
manifests (the key tile-1 gets a different rectangle). -/
theorem C6_cex_listing_order_leaks :
    (["1.png".data, "01.png".data] : List (List Char)).Perm
      ["01.png".data, "1.png".data] ∧
    (packOutput 16 16 ["1.png".data, "01.png".data]).map
      (fun P => lookupKey (tileKey ("1.png".data)) P.manifest) =
      .ok (some ⟨0, 0, 16, 16⟩) ∧
    (packOutput 16 16 ["01.png".data, "1.png".data]).map
      (fun P => lookupKey (tileKey ("1.png".data)) P.manifest) =
      .ok (some ⟨16, 0, 16, 16⟩) ∧
    packOutput 16 16 ["1.png".data, "01.png".data] ≠
      packOutput 16 16 ["01.png".data, "1.png".data] := by
  decide

/-- C6 (amended): when the integer values of the kept stems are pairwise
distinct, the packer output (canvas, placements and manifest) is the same
for any two listing orders of the same files. -/
theorem C6_pack_order_independent (C ts : Nat) (l1 l2 : List (List Char))
    (hperm : l1.Perm l2)
    (hparse : ∀ f ∈ l1.filter isPngCI, (pyIntOfChars (stemOf f)).isSome)
    (hkeys : ((l1.filter isPngCI).map keyOf).Nodup) :
    packOutput C ts l1 = packOutput C ts l2 := by
  have hpermf : (l1.filter isPngCI).Perm (l2.filter isPngCI) :=
    hperm.filter isPngCI
  have hparse2 : ∀ f ∈ l2.filter isPngCI, (pyIntOfChars (stemOf f)).isSome :=
    fun f hf => hparse f (hpermf.mem_iff.mpr hf)
  have hck1 := computeKeys_all_some hparse
  have hck2 := computeKeys_all_some hparse2
  have hkvperm : ((l1.filter isPngCI).map fun f => (f, keyOf f)).Perm
      ((l2.filter isPngCI).map fun f => (f, keyOf f)) :=
    hpermf.map _
  have hsnd : (((l1.filter isPngCI).map fun f => (f, keyOf f)).map
      Prod.snd).Nodup := by
    rw [List.map_map]
    exact hkeys
  have hpair1 : ((l1.filter isPngCI).map fun f => (f, keyOf f)).Pairwise
      (fun a b => a.2 ≠ b.2) := by
    have hp := nodup_map_pairwise hsnd
    exact hp
  have hsym : ∀ {x y : List Char × Int}, x.2 ≠ y.2 → y.2 ≠ x.2 :=
    fun hab he => hab he.symm
  have hs : List.insertionSort keyLe
      ((l1.filter isPngCI).map fun f => (f, keyOf f)) =
      List.insertionSort keyLe
        ((l2.filter isPngCI).map fun f => (f, keyOf f)) := by
    have hp : (List.insertionSort keyLe
        ((l1.filter isPngCI).map fun f => (f, keyOf f))).Perm
        (List.insertionSort keyLe
          ((l2.filter isPngCI).map fun f => (f, keyOf f))) :=
      ((List.perm_insertionSort keyLe _).trans hkvperm).trans
        (List.perm_insertionSort keyLe _).symm
    have hsort1 := List.sorted_insertionSort keyLe
      ((l1.filter isPngCI).map fun f => (f, keyOf f))
    have hsort2 := List.sorted_insertionSort keyLe
      ((l2.filter isPngCI).map fun f => (f, keyOf f))
    have hpairs1 : (List.insertionSort keyLe
        ((l1.filter isPngCI).map fun f => (f, keyOf f))).Pairwise
        (fun a b => a.2 ≠ b.2) :=
      ((List.perm_insertionSort keyLe _).pairwise_iff hsym).mpr hpair1
    have hpairs2 : (List.insertionSort keyLe
        ((l2.filter isPngCI).map fun f => (f, keyOf f))).Pairwise
        (fun a b => a.2 ≠ b.2) :=
      ((List.perm_insertionSort keyLe _).pairwise_iff hsym).mpr
        (((hkvperm).pairwise_iff hsym).mp hpair1)
    have hlt1 : (List.insertionSort keyLe
        ((l1.filter isPngCI).map fun f => (f, keyOf f))).Sorted keyLt :=
      (hsort1.and hpairs1).imp (fun hab => lt_of_le_of_ne hab.1 hab.2)
    have hlt2 : (List.insertionSort keyLe
        ((l2.filter isPngCI).map fun f => (f, keyOf f))).Sorted keyLt :=
      (hsort2.and hpairs2).imp (fun hab => lt_of_le_of_ne hab.1 hab.2)
    exact List.eq_of_perm_of_sorted hp hlt1 hlt2
  have hpf1 : packFiles l1 = .ok ((List.insertionSort keyLe
      ((l1.filter isPngCI).map fun f => (f, keyOf f))).map Prod.fst) := by
    unfold packFiles
    rw [hck1]
  have hpf2 : packFiles l2 = .ok ((List.insertionSort keyLe
      ((l2.filter isPngCI).map fun f => (f, keyOf f))).map Prod.fst) := by
    unfold packFiles
    rw [hck2]
  unfold packOutput
  rw [hpf1, hpf2, hs]

/-- Witness for C6: two listing orders of the folder 1.png, 2.png give
identical packer output. -/
theorem C6_witness :
    (["2.png".data, "1.png".data] : List (List Char)).Perm
      ["1.png".data, "2.png".data] ∧
    (∀ f ∈ (["2.png".data, "1.png".data] : List (List Char)).filter isPngCI,
      (pyIntOfChars (stemOf f)).isSome) ∧
    (((["2.png".data, "1.png".data] : List (List Char)).filter isPngCI).map
      keyOf).Nodup ∧
    packOutput 16 16 ["2.png".data, "1.png".data] =
      packOutput 16 16 ["1.png".data, "2.png".data] :=
  ⟨by decide, by decide, by decide,
    C6_pack_order_independent 16 16 ["2.png".data, "1.png".data]
      ["1.png".data, "2.png".data] (by decide) (by decide) (by decide)⟩
